import Mathlib

/-!
Verification of the self-balancing tree construction engines and the
trace/playback harness of the DSA-Visualizer repository.

The AVL engine (`src/components/Tree/AVL Tree.js`) and the Red-Black engine
(`src/components/Tree/Red-black Tree.js`) are embedded shallowly:

* JavaScript null-pointer dereferences are modelled by `Option`: an operation
  that would throw a `TypeError` returns `none`.
* The Red-Black engine walks `parent` pointers upward during fixup; we embed
  the parent chain as an explicit list of zipper frames (`Frame`), so the
  imperative loop becomes structural recursion on the frame list.
* Numeric keys are `Int`; stored AVL heights are `Nat`.
-/

namespace DSAViz

/-! ## AVL tree model (`AVL Tree.js`) -/

/-- A node of the AVL tree: `value`, `left`, `right` and the memoized
`height` field, exactly the fields the engine reads. -/
inductive AVLTree : Type where
  | nil : AVLTree
  | node (left : AVLTree) (value : Int) (height : Nat) (right : AVLTree) : AVLTree
deriving Repr, DecidableEq

/-- `getHeight(node)`: `node ? node.height : 0`. -/
def getHeight : AVLTree → Nat
  | .nil => 0
  | .node _ _ h _ => h

/-- `getBalance(node)`: stored-height balance factor. -/
def getBalance : AVLTree → Int
  | .nil => 0
  | .node l _ _ r => (getHeight l : Int) - (getHeight r : Int)

/-- Rebuild a node recomputing its height field as
`1 + Math.max(getHeight(left), getHeight(right))`. -/
def mkNode (l : AVLTree) (v : Int) (r : AVLTree) : AVLTree :=
  .node l v (1 + max (getHeight l) (getHeight r)) r

/-- `rightRotate(y)`. If `y.left` is null the JS code dereferences null
(`x.right` with `x === null`), modelled as `none`.  The height of the
demoted node is recomputed before the height of the promoted node. -/
def rightRotate : AVLTree → Option AVLTree
  | .node (.node xl xv _ xr) yv _ yr => some (mkNode xl xv (mkNode xr yv yr))
  | _ => none

/-- `leftRotate(x)`. If `x.right` is null the JS code dereferences null,
modelled as `none`. -/
def leftRotate : AVLTree → Option AVLTree
  | .node xl xv _ (.node yl yv _ yr) => some (mkNode (mkNode xl xv yl) yv yr)
  | _ => none

/-- The unwind phase of `avlInsert` for a node whose relevant child has been
replaced by `l` (resp. `r`): update the memoized height, compute the balance
factor, and run the four guarded rebalancing cases in source order.
Accessing `.value` of a null child is `none`. -/
def avlRebalance (l : AVLTree) (rv : Int) (r : AVLTree) (v : Int) : Option AVLTree :=
  let h := 1 + max (getHeight l) (getHeight r)
  let balance : Int := (getHeight l : Int) - (getHeight r : Int)
  if 1 < balance then
    match l with
    | .nil => none
    | .node ll lv lh lr =>
      if v < lv then rightRotate (.node (.node ll lv lh lr) rv h r)
      else if lv < v then
        match leftRotate (.node ll lv lh lr) with
        | none => none
        | some l2 => rightRotate (.node l2 rv h r)
      else some (.node l rv h r)
  else if balance < -1 then
    match r with
    | .nil => none
    | .node rl rrv rh rr =>
      if rrv < v then leftRotate (.node l rv h (.node rl rrv rh rr))
      else if v < rrv then
        match rightRotate (.node rl rrv rh rr) with
        | none => none
        | some r2 => leftRotate (.node l rv h r2)
      else some (.node l rv h r)
  else some (.node l rv h r)

/-- `avlInsert(root, value)`: recursive BST insert (`value < root.value`
goes left, otherwise right), then height update and rebalancing on the way
back up. -/
def avlInsert : AVLTree → Int → Option AVLTree
  | .nil, v => some (.node .nil v 1 .nil)
  | .node l rv _ r, v =>
    if v < rv then (avlInsert l v).bind fun lNew => avlRebalance lNew rv r v
    else (avlInsert r v).bind fun rNew => avlRebalance l rv rNew v

/-- The loop body of `buildAVLTreeSteps`: insert each value in order,
recording one snapshot (a deep copy, here the value itself) per insertion. -/
def buildAVLTreeStepsGo : AVLTree → List Int → Option (List AVLTree)
  | _, [] => some []
  | root, v :: rest =>
    (avlInsert root v).bind fun root2 =>
      (buildAVLTreeStepsGo root2 rest).map fun steps => root2 :: steps

/-- `buildAVLTreeSteps(values)`: the recorded trace of the AVL engine. -/
def buildAVLTreeSteps (values : List Int) : Option (List AVLTree) :=
  buildAVLTreeStepsGo .nil values

/-- The engine state after inserting a whole key list into the empty tree. -/
def avlInsertList (values : List Int) : Option AVLTree :=
  values.foldlM avlInsert .nil

/-- Actual height of a subtree (leaf height 1, empty subtree height 0). -/
def realHeight : AVLTree → Nat
  | .nil => 0
  | .node l _ _ r => 1 + max (realHeight l) (realHeight r)

/-- Every memoized `height` field equals the actual height of its subtree. -/
def heightsOK : AVLTree → Bool
  | .nil => true
  | .node l _ h r => heightsOK l && heightsOK r && (h == 1 + max (realHeight l) (realHeight r))

/-- The AVL balance invariant, in terms of actual heights: at every node
`|height(left) − height(right)| ≤ 1`. -/
def avlBalanced : AVLTree → Bool
  | .nil => true
  | .node l _ _ r =>
    avlBalanced l && avlBalanced r &&
      decide (((realHeight l : Int) - (realHeight r : Int)).natAbs ≤ 1)

/-- In-order traversal of the AVL tree. -/
def inorder : AVLTree → List Int
  | .nil => []
  | .node l v _ r => inorder l ++ v :: inorder r

/-- Root key of a nonempty AVL tree (`0` for the empty tree). -/
def rootVal : AVLTree → Int
  | .nil => 0
  | .node _ v _ _ => v

/-- Balance factor computed from actual heights. -/
def bfR : AVLTree → Int
  | .nil => 0
  | .node l _ _ r => (realHeight l : Int) - (realHeight r : Int)

/-- In-order traversal of the tree with `v` inserted along the pure BST
search path (`v < value` goes left, otherwise right), before any rotation. -/
def inorderIns : AVLTree → Int → List Int
  | .nil, v => [v]
  | .node l w _ r, v =>
    if v < w then inorderIns l v ++ w :: inorder r
    else inorder l ++ w :: inorderIns r v

/-! ## Red-Black tree model (`Red-black Tree.js`) -/

/-- Node colors; new nodes are created `red`. -/
inductive Color : Type where
  | red : Color
  | black : Color
deriving Repr, DecidableEq

/-- A Red-Black node: `color`, `left`, `value`, `right`.  The `parent`
back-reference of the source is represented by the zipper context below,
not stored in the node. -/
inductive RBTree : Type where
  | nil : RBTree
  | node (color : Color) (left : RBTree) (value : Int) (right : RBTree) : RBTree
deriving Repr, DecidableEq

/-- Which child slot of its parent a focused node occupies. -/
inductive Dir : Type where
  | left : Dir
  | right : Dir
deriving Repr, DecidableEq

/-- One step of the parent chain: the focused node sits in slot `dir` of a
parent with this `color` and `value`, whose other child is `sib`. -/
structure Frame : Type where
  dir : Dir
  color : Color
  value : Int
  sib : RBTree
deriving Repr, DecidableEq

/-- Reattach a focused subtree into its parent frame. -/
def plugFrame (t : RBTree) (f : Frame) : RBTree :=
  match f.dir with
  | .left => .node f.color t f.value f.sib
  | .right => .node f.color f.sib f.value t

/-- Rebuild the whole tree from a focused subtree and its parent chain. -/
def plug : RBTree → List Frame → RBTree
  | t, [] => t
  | t, f :: rest => plug (plugFrame t f) rest

/-- The downward walk of `redBlackInsert`: descend comparing
`z.value < x.value` (left) versus otherwise (right), recording the parent
chain; stops at the null slot where the new node is attached. -/
def descend : RBTree → Int → List Frame → List Frame
  | .nil, _, ctx => ctx
  | .node c l w r, v, ctx =>
    if v < w then descend l v (⟨.left, c, w, r⟩ :: ctx)
    else descend r v (⟨.right, c, w, l⟩ :: ctx)

/-- `root.color = BLACK`. -/
def setBlack : RBTree → RBTree
  | .nil => .nil
  | .node _ l v r => .node .black l v r

/-- `fixInsert(root, z)`: the fixup loop.  The focused node is `z`; the
frame list is the chain of proper ancestors (parent first).  While the
parent exists and is red the loop body runs; reading `z.parent.parent`
when the grandparent is absent is the JS null dereference, `none`.  The
uncle-red case recolors and refocuses on the grandparent (two frames up);
the rotation cases restructure and fall out of the loop, after which the
root is unconditionally recolored black. -/
def fixInsert : RBTree → List Frame → Option RBTree
  | z, [] => some (setBlack z)
  | z, pf :: rest =>
    if pf.color = .black then some (setBlack (plug z (pf :: rest)))
    else
      match rest with
      | [] => none
      | gf :: rest2 =>
        match gf.dir with
        | .left =>
          match gf.sib with
          | .node .red ul uv ur =>
            fixInsert
              (.node .red (plugFrame z ⟨pf.dir, .black, pf.value, pf.sib⟩)
                gf.value (.node .black ul uv ur)) rest2
          | u =>
            match pf.dir with
            | .right =>
              match z with
              | .nil => none
              | .node _ zl zv zr =>
                some (setBlack (plug
                  (.node .black (.node .red pf.sib pf.value zl) zv
                    (.node .red zr gf.value u)) rest2))
            | .left =>
              some (setBlack (plug
                (.node .black z pf.value (.node .red pf.sib gf.value u)) rest2))
        | .right =>
          match gf.sib with
          | .node .red ul uv ur =>
            fixInsert
              (.node .red (.node .black ul uv ur) gf.value
                (plugFrame z ⟨pf.dir, .black, pf.value, pf.sib⟩)) rest2
          | u =>
            match pf.dir with
            | .left =>
              match z with
              | .nil => none
              | .node _ zl zv zr =>
                some (setBlack (plug
                  (.node .black (.node .red u gf.value zl) zv
                    (.node .red zr pf.value pf.sib)) rest2))
            | .right =>
              some (setBlack (plug
                (.node .black (.node .red u gf.value pf.sib) pf.value z) rest2))

/-- `redBlackInsert(root, value)`: BST insert of a new red node, then fixup. -/
def redBlackInsert (root : RBTree) (value : Int) : Option RBTree :=
  fixInsert (.node .red .nil value .nil) (descend root value [])

/-- The loop body of `buildRedBlackTreeSteps`: one deep, parent-free
snapshot (`cloneTree`) per insertion. -/
def buildRedBlackTreeStepsGo : RBTree → List Int → Option (List RBTree)
  | _, [] => some []
  | root, v :: rest =>
    (redBlackInsert root v).bind fun root2 =>
      (buildRedBlackTreeStepsGo root2 rest).map fun steps => root2 :: steps

/-- `buildRedBlackTreeSteps(values)`: the recorded trace of the RB engine. -/
def buildRedBlackTreeSteps (values : List Int) : Option (List RBTree) :=
  buildRedBlackTreeStepsGo .nil values

/-- The engine state after inserting a whole key list into the empty tree. -/
def rbInsertList (values : List Int) : Option RBTree :=
  values.foldlM redBlackInsert .nil

/-- The root is black (vacuously for the empty tree). -/
def rootBlack : RBTree → Bool
  | .nil => true
  | .node c _ _ _ => c == .black

/-- No red node has a red child. -/
def isRedB : RBTree → Bool
  | .node .red _ _ _ => true
  | _ => false

/-- No red node has a red child anywhere in the tree. -/
def noRedRed : RBTree → Bool
  | .nil => true
  | .node c l _ r =>
    noRedRed l && noRedRed r && (c == .black || (!isRedB l && !isRedB r))

/-- Black-height of a tree when every root-to-null path through every node
carries the same number of black nodes, `none` otherwise. -/
def blackHeight? : RBTree → Option Nat
  | .nil => some 0
  | .node c l _ r =>
    match blackHeight? l, blackHeight? r with
    | some a, some b =>
      if a = b then some (a + (if c = .black then 1 else 0)) else none
    | _, _ => none

/-- In-order traversal of the Red-Black tree. -/
def rbInorder : RBTree → List Int
  | .nil => []
  | .node _ l v r => rbInorder l ++ v :: rbInorder r

/-- The pure BST insertion skeleton of `redBlackInsert` (the downward walk
with the new red node attached, before fixup). -/
def rbInsertUnbalanced : RBTree → Int → RBTree
  | .nil, v => .node .red .nil v .nil
  | .node c l w r, v =>
    if v < w then .node c (rbInsertUnbalanced l v) w r
    else .node c l w (rbInsertUnbalanced r v)

/-- Iteration count of the `fixInsert` loop (one per executed loop body). -/
def fixInsertIters : RBTree → List Frame → Nat
  | _, [] => 0
  | z, pf :: rest =>
    if pf.color = .black then 0
    else
      match rest with
      | [] => 1
      | gf :: rest2 =>
        match gf.dir with
        | .left =>
          match gf.sib with
          | .node .red ul uv ur =>
            1 + fixInsertIters
              (.node .red (plugFrame z ⟨pf.dir, .black, pf.value, pf.sib⟩)
                gf.value (.node .black ul uv ur)) rest2
          | _ => 1
        | .right =>
          match gf.sib with
          | .node .red ul uv ur =>
            1 + fixInsertIters
              (.node .red (.node .black ul uv ur) gf.value
                (plugFrame z ⟨pf.dir, .black, pf.value, pf.sib⟩)) rest2
          | _ => 1

/-! ## Playback controller model (`AlgorithmVisualizer`) -/

/-- One timer tick of the playback `setInterval` callback:
`prev < steps.length - 1 ? prev + 1 : prev` (with `Nat` saturating
subtraction matching the JS comparison against `-1` for empty traces). -/
def tickIndex (len : Nat) (i : Nat) : Nat :=
  if i < len - 1 then i + 1 else i

/-- The reset effect that runs whenever the trace is replaced. -/
def resetIndex : Nat := 0

/-- `n` consecutive timer ticks. -/
def runTicks (len : Nat) : Nat → Nat → Nat
  | 0, i => i
  | n + 1, i => runTicks len n (tickIndex len i)

/-! ## Sortedness helper -/

/-- A list of keys is non-decreasing. -/
def sortedLe : List Int → Bool
  | [] => true
  | [_] => true
  | a :: b :: l => decide (a ≤ b) && sortedLe (b :: l)

/-- The keys of a sorted list that the duplicate policy keeps to the left
of a freshly inserted `v`. -/
def lowPart (l : List Int) (v : Int) : List Int :=
  l.filter fun x => decide (x ≤ v)

/-- The keys of a sorted list that stay to the right of a freshly
inserted `v`. -/
def highPart (l : List Int) (v : Int) : List Int :=
  l.filter fun x => decide (v < x)

theorem sortedLe_iff_pairwise : ∀ {l : List Int}, sortedLe l = true ↔ l.Pairwise (· ≤ ·)
  | [] => by simp [sortedLe]
  | [a] => by simp [sortedLe]
  | a :: b :: l => by
    rw [sortedLe, Bool.and_eq_true, decide_eq_true_iff, sortedLe_iff_pairwise]
    simp only [List.pairwise_cons]
    constructor
    · rintro ⟨hab, hb, hl⟩
      refine ⟨?_, hb, hl⟩
      intro x hx
      rcases List.mem_cons.1 hx with rfl | hx
      · exact hab
      · exact le_trans hab (hb x hx)
    · rintro ⟨ha, hb, hl⟩
      exact ⟨ha b (List.mem_cons_self b l), hb, hl⟩

theorem mem_lowPart {l : List Int} {v x : Int} (h : x ∈ lowPart l v) : x ≤ v := by
  have := List.of_mem_filter h
  simpa using this

theorem mem_highPart {l : List Int} {v x : Int} (h : x ∈ highPart l v) : v < x := by
  have := List.of_mem_filter h
  simpa using this

theorem sortedLe_filter {l : List Int} (p : Int → Bool) (h : sortedLe l = true) :
    sortedLe (l.filter p) = true :=
  sortedLe_iff_pairwise.2
    (List.Pairwise.sublist (List.filter_sublist l) (sortedLe_iff_pairwise.1 h))

/-- Inserting `v` between the `≤ v` keys and the `> v` keys of a sorted
list keeps it sorted. -/
theorem sortedLe_insertMiddle {l : List Int} (v : Int) (h : sortedLe l = true) :
    sortedLe (lowPart l v ++ v :: highPart l v) = true := by
  apply sortedLe_iff_pairwise.2
  rw [List.pairwise_append]
  refine ⟨sortedLe_iff_pairwise.1 (sortedLe_filter _ h), ?_, ?_⟩
  · rw [List.pairwise_cons]
    exact ⟨fun x hx => le_of_lt (mem_highPart hx),
      sortedLe_iff_pairwise.1 (sortedLe_filter _ h)⟩
  · intro a ha b hb
    rcases List.mem_cons.1 hb with rfl | hb
    · exact mem_lowPart ha
    · exact le_of_lt (lt_of_le_of_lt (mem_lowPart ha) (mem_highPart hb))

/-- Splitting a sorted in-order list at its root key. -/
theorem sortedLe_append_node {A B : List Int} {w : Int}
    (h : sortedLe (A ++ w :: B) = true) :
    sortedLe A = true ∧ sortedLe B = true ∧ (∀ a ∈ A, a ≤ w) ∧ (∀ b ∈ B, w ≤ b) := by
  have hp := sortedLe_iff_pairwise.1 h
  rw [List.pairwise_append] at hp
  obtain ⟨hA, hwB, hcross⟩ := hp
  rw [List.pairwise_cons] at hwB
  exact ⟨sortedLe_iff_pairwise.2 hA, sortedLe_iff_pairwise.2 hwB.2,
    fun a ha => hcross a ha w (List.mem_cons_self w B), hwB.1⟩

theorem lowPart_append_gt {A B : List Int} {w v : Int} (hw : v < w)
    (hB : ∀ b ∈ B, w ≤ b) : lowPart (A ++ w :: B) v = lowPart A v := by
  rw [lowPart, List.filter_append, lowPart]
  have h2 : (w :: B).filter (fun x => decide (x ≤ v)) = [] := by
    apply List.filter_eq_nil_iff.2
    intro b hb
    rcases List.mem_cons.1 hb with rfl | hb
    · simpa using not_le.2 hw
    · simpa using not_le.2 (lt_of_lt_of_le hw (hB b hb))
  rw [h2, List.append_nil]

theorem highPart_append_gt {A B : List Int} {w v : Int} (hw : v < w)
    (hB : ∀ b ∈ B, w ≤ b) : highPart (A ++ w :: B) v = highPart A v ++ w :: B := by
  rw [highPart, List.filter_append, highPart]
  congr 1
  apply List.filter_eq_self.2
  intro b hb
  rcases List.mem_cons.1 hb with rfl | hb
  · simpa using hw
  · simpa using lt_of_lt_of_le hw (hB b hb)

theorem lowPart_append_le {A B : List Int} {w v : Int} (hw : w ≤ v)
    (hA : ∀ a ∈ A, a ≤ w) : lowPart (A ++ w :: B) v = A ++ w :: lowPart B v := by
  rw [lowPart, List.filter_append, lowPart]
  congr 1
  · apply List.filter_eq_self.2
    intro a ha
    simpa using le_trans (hA a ha) hw
  · rw [List.filter_cons]
    simp [hw]

theorem highPart_append_le {A B : List Int} {w v : Int} (hw : w ≤ v)
    (hA : ∀ a ∈ A, a ≤ w) : highPart (A ++ w :: B) v = highPart B v := by
  rw [highPart, List.filter_append, highPart]
  have h1 : A.filter (fun x => decide (v < x)) = [] := by
    apply List.filter_eq_nil_iff.2
    intro a ha
    simpa using not_lt.2 (le_trans (hA a ha) hw)
  rw [h1, List.nil_append, List.filter_cons]
  simp [not_lt.2 hw]

/-! ## In-order behaviour of the AVL engine -/

theorem inorder_mkNode (l : AVLTree) (v : Int) (r : AVLTree) :
    inorder (mkNode l v r) = inorder l ++ v :: inorder r := rfl

theorem rightRotate_inorder : ∀ {t t' : AVLTree}, rightRotate t = some t' →
    inorder t' = inorder t
  | .node (.node xl xv xh xr) yv yh yr, _, h => by
    rw [rightRotate] at h
    cases h
    simp [mkNode, inorder]
  | .nil, _, h => by simp [rightRotate] at h
  | .node .nil yv yh yr, _, h => by simp [rightRotate] at h

theorem leftRotate_inorder : ∀ {t t' : AVLTree}, leftRotate t = some t' →
    inorder t' = inorder t
  | .node xl xv xh (.node yl yv yh yr), _, h => by
    rw [leftRotate] at h
    cases h
    simp [mkNode, inorder]
  | .nil, _, h => by simp [leftRotate] at h
  | .node xl xv xh .nil, _, h => by simp [leftRotate] at h

theorem avlRebalance_inorder {l : AVLTree} {rv : Int} {r : AVLTree} {v : Int}
    {t2 : AVLTree} (h : avlRebalance l rv r v = some t2) :
    inorder t2 = inorder l ++ rv :: inorder r := by
  simp only [avlRebalance] at h
  split at h
  · split at h
    · exact absurd h (by simp)
    · split at h
      · rw [rightRotate_inorder h]
        rfl
      · split at h
        · split at h
          · exact absurd h (by simp)
          · next l2 heq =>
            rw [rightRotate_inorder h, inorder, ← leftRotate_inorder heq]
        · cases h
          rfl
  · split at h
    · split at h
      · exact absurd h (by simp)
      · split at h
        · rw [leftRotate_inorder h]
          rfl
        · split at h
          · split at h
            · exact absurd h (by simp)
            · next r2 heq =>
              rw [leftRotate_inorder h, inorder, ← rightRotate_inorder heq]
          · cases h
            rfl
    · cases h
      rfl

theorem avlInsert_inorder : ∀ {t : AVLTree} {v : Int} {t2 : AVLTree},
    avlInsert t v = some t2 → inorder t2 = inorderIns t v
  | .nil, v, t2, h => by
    rw [avlInsert] at h
    cases h
    rfl
  | .node l rv hh r, v, t2, h => by
    rw [avlInsert] at h
    split at h
    · next hvr =>
      cases hl : avlInsert l v with
      | none => rw [hl] at h; exact absurd h (by simp)
      | some l2 =>
        rw [hl, Option.some_bind] at h
        rw [avlRebalance_inorder h, avlInsert_inorder hl, inorderIns, if_pos hvr]
    · next hvr =>
      cases hr : avlInsert r v with
      | none => rw [hr] at h; exact absurd h (by simp)
      | some r2 =>
        rw [hr, Option.some_bind] at h
        rw [avlRebalance_inorder h, avlInsert_inorder hr, inorderIns, if_neg hvr]

/-- Where the pure BST search path of the AVL engine places a fresh key in
the in-order sequence of a sorted tree: after every key `≤ v`, before
every key `> v`. -/
theorem inorderIns_decomp : ∀ {t : AVLTree} (v : Int), sortedLe (inorder t) = true →
    inorderIns t v = lowPart (inorder t) v ++ v :: highPart (inorder t) v
  | .nil, v, _ => by simp [inorderIns, inorder, lowPart, highPart]
  | .node l w hh r, v, hs => by
    rw [inorder] at hs ⊢
    obtain ⟨hA, hB, haw, hwb⟩ := sortedLe_append_node hs
    rw [inorderIns]
    by_cases hvw : v < w
    · rw [if_pos hvw, inorderIns_decomp v hA,
        lowPart_append_gt hvw hwb, highPart_append_gt hvw hwb]
      simp
    · have hwv : w ≤ v := not_lt.1 hvw
      rw [if_neg hvw, inorderIns_decomp v hB,
        lowPart_append_le hwv haw, highPart_append_le hwv haw]
      simp

theorem avlInsert_sorted {t : AVLTree} {v : Int} {t2 : AVLTree}
    (hs : sortedLe (inorder t) = true) (h : avlInsert t v = some t2) :
    sortedLe (inorder t2) = true := by
  rw [avlInsert_inorder h, inorderIns_decomp v hs]
  exact sortedLe_insertMiddle v hs

/-! ## In-order behaviour of the Red-Black engine -/

theorem rbInorder_plugFrame_congr {a b : RBTree} (f : Frame)
    (h : rbInorder a = rbInorder b) :
    rbInorder (plugFrame a f) = rbInorder (plugFrame b f) := by
  obtain ⟨d, c, v, s⟩ := f
  cases d <;> simp [plugFrame, rbInorder, h]

theorem rbInorder_plug_congr : ∀ (ctx : List Frame) {a b : RBTree},
    rbInorder a = rbInorder b → rbInorder (plug a ctx) = rbInorder (plug b ctx)
  | [], _, _, h => h
  | f :: rest, _, _, h => rbInorder_plug_congr rest (rbInorder_plugFrame_congr f h)

theorem rbInorder_setBlack (t : RBTree) : rbInorder (setBlack t) = rbInorder t := by
  cases t <;> rfl

/-- Recoloring and rotating inside `fixInsert` never changes the in-order
key sequence of the whole tree. -/
theorem fixInsert_inorder : ∀ (ctx : List Frame) (z : RBTree) {t2 : RBTree},
    fixInsert z ctx = some t2 → rbInorder t2 = rbInorder (plug z ctx)
  | [], z, t2, h => by
    rw [fixInsert] at h
    cases h
    exact rbInorder_setBlack z
  | ⟨pd, pc, pv, ps⟩ :: rest, z, t2, h => by
    rw [fixInsert.eq_def] at h
    dsimp only at h
    split at h
    · cases h
      exact rbInorder_setBlack _
    · split at h
      · exact absurd h (by simp)
      · next gf rest2 =>
        obtain ⟨gd, gc, gv, gs⟩ := gf
        dsimp only at h
        split at h
        all_goals split at h
        · -- parent left of grandparent, uncle red: recolor, refocus
          rw [fixInsert_inorder rest2 _ h, plug, plug]
          refine rbInorder_plug_congr rest2 ?_
          cases pd <;> simp [plugFrame, rbInorder]
        · -- parent left, uncle black or absent
          split at h
          · split at h
            · exact absurd h (by simp)
            · cases h
              rw [rbInorder_setBlack, plug, plug]
              refine rbInorder_plug_congr rest2 ?_
              simp [plugFrame, rbInorder]
          · cases h
            rw [rbInorder_setBlack, plug, plug]
            refine rbInorder_plug_congr rest2 ?_
            simp [plugFrame, rbInorder]
        · -- parent right of grandparent, uncle red
          rw [fixInsert_inorder rest2 _ h, plug, plug]
          refine rbInorder_plug_congr rest2 ?_
          cases pd <;> simp [plugFrame, rbInorder]
        · -- parent right, uncle black or absent
          split at h
          · split at h
            · exact absurd h (by simp)
            · cases h
              rw [rbInorder_setBlack, plug, plug]
              refine rbInorder_plug_congr rest2 ?_
              simp [plugFrame, rbInorder]
          · cases h
            rw [rbInorder_setBlack, plug, plug]
            refine rbInorder_plug_congr rest2 ?_
            simp [plugFrame, rbInorder]

/-- The downward walk plus attachment of the new red node is exactly the
pure BST insertion skeleton. -/
theorem descend_plug : ∀ (t : RBTree) (v : Int) (ctx : List Frame),
    plug (.node .red .nil v .nil) (descend t v ctx) =
      plug (rbInsertUnbalanced t v) ctx
  | .nil, _, _ => rfl
  | .node c l w r, v, ctx => by
    rw [descend, rbInsertUnbalanced]
    by_cases hvw : v < w
    · rw [if_pos hvw, if_pos hvw, descend_plug l v _]
      rfl
    · rw [if_neg hvw, if_neg hvw, descend_plug r v _]
      rfl

theorem rbInsertUnbalanced_decomp : ∀ {t : RBTree} (v : Int),
    sortedLe (rbInorder t) = true →
    rbInorder (rbInsertUnbalanced t v) =
      lowPart (rbInorder t) v ++ v :: highPart (rbInorder t) v
  | .nil, v, _ => by simp [rbInsertUnbalanced, rbInorder, lowPart, highPart]
  | .node c l w r, v, hs => by
    rw [rbInorder] at hs ⊢
    obtain ⟨hA, hB, haw, hwb⟩ := sortedLe_append_node hs
    by_cases hvw : v < w
    · rw [rbInsertUnbalanced, if_pos hvw, rbInorder, rbInsertUnbalanced_decomp v hA,
        lowPart_append_gt hvw hwb, highPart_append_gt hvw hwb]
      simp
    · have hwv : w ≤ v := not_lt.1 hvw
      rw [rbInsertUnbalanced, if_neg hvw, rbInorder, rbInsertUnbalanced_decomp v hB,
        lowPart_append_le hwv haw, highPart_append_le hwv haw]
      simp

theorem redBlackInsert_inorder {t : RBTree} {v : Int} {t2 : RBTree}
    (h : redBlackInsert t v = some t2) :
    rbInorder t2 = rbInorder (rbInsertUnbalanced t v) := by
  rw [redBlackInsert] at h
  rw [fixInsert_inorder _ _ h, descend_plug t v []]
  rfl

theorem redBlackInsert_sorted {t : RBTree} {v : Int} {t2 : RBTree}
    (hs : sortedLe (rbInorder t) = true) (h : redBlackInsert t v = some t2) :
    sortedLe (rbInorder t2) = true := by
  rw [redBlackInsert_inorder h, rbInsertUnbalanced_decomp v hs]
  exact sortedLe_insertMiddle v hs

/-! ## Red-Black invariant preservation -/

/-- The Red-Black structural invariant: `IsRB t c n` states that `t` has
root color `c`, every red node has black children, and every path from any
node down to a null leaf passes `n` black nodes below the root. -/
inductive IsRB : RBTree → Color → Nat → Prop where
  | nil : IsRB .nil .black 0
  | red {l : RBTree} {v : Int} {r : RBTree} {n : Nat} :
      IsRB l .black n → IsRB r .black n → IsRB (.node .red l v r) .red n
  | black {l r : RBTree} {v : Int} {n : Nat} {cl cr : Color} :
      IsRB l cl n → IsRB r cr n → IsRB (.node .black l v r) .black (n + 1)

/-- Validity of a parent chain whose hole expects a subtree of root color
`c` and black-height `n`: a red parent frame demands a black occupant and
passes redness upward, a black frame accepts anything. -/
inductive ZipOK : List Frame → Color → Nat → Prop where
  | nil (c : Color) (n : Nat) : ZipOK [] c n
  | consBlack {rest : List Frame} {d : Dir} {v : Int} {sib : RBTree} {n : Nat}
      {cs : Color} (c : Color) :
      ZipOK rest .black (n + 1) → IsRB sib cs n →
      ZipOK (⟨d, .black, v, sib⟩ :: rest) c n
  | consRed {rest : List Frame} {d : Dir} {v : Int} {sib : RBTree} {n : Nat} :
      ZipOK rest .red n → IsRB sib .black n →
      ZipOK (⟨d, .red, v, sib⟩ :: rest) .black n

/-- The frame nearest the root (the root of the whole tree) is black. -/
def LastBlack : List Frame → Prop
  | [] => True
  | [f] => f.color = .black
  | _ :: f :: rest => LastBlack (f :: rest)

theorem lastBlack_of_cons : ∀ {f : Frame} {l : List Frame},
    LastBlack (f :: l) → LastBlack l
  | _, [], _ => trivial
  | _, _ :: _, h => h

theorem plug_isRB : ∀ {ctx : List Frame} {c : Color} {n : Nat} {t : RBTree},
    ZipOK ctx c n → IsRB t c n → ∃ c2 m, IsRB (plug t ctx) c2 m := by
  intro ctx c n t hz
  induction hz generalizing t with
  | nil c n => exact fun ht => ⟨c, n, ht⟩
  | consBlack c hrest hsib ih =>
    intro ht
    apply ih
    rename_i d v sib n2 cs
    cases d
    · exact .black ht hsib
    · exact .black hsib ht
  | consRed hrest hsib ih =>
    intro ht
    apply ih
    rename_i d v sib n2
    cases d
    · exact .red ht hsib
    · exact .red hsib ht

theorem setBlack_isRB {t : RBTree} {c : Color} {n : Nat} (h : IsRB t c n) :
    ∃ m, IsRB (setBlack t) .black m := by
  cases h with
  | nil => exact ⟨0, .nil⟩
  | red hl hr => exact ⟨_, .black hl hr⟩
  | black hl hr => exact ⟨_, .black hl hr⟩

/-- Soundness and crash-freedom of the fixup loop: if the focused node is a
valid red subtree, the parent chain is valid for a black occupant of the
same black-height, and the root of the whole tree is black, then
`fixInsert` completes without null dereference and returns a tree
satisfying all Red-Black invariants. -/
theorem fixInsert_sound : ∀ (ctx : List Frame) (z : RBTree) {n : Nat},
    IsRB z .red n → ZipOK ctx .black n → LastBlack ctx →
    ∃ t2 m, fixInsert z ctx = some t2 ∧ IsRB t2 .black m
  | [], z, n, hzr, _, _ => by
    obtain ⟨m, hm⟩ := setBlack_isRB hzr
    exact ⟨setBlack z, m, by rw [fixInsert.eq_def], hm⟩
  | ⟨pd, pc, pv, ps⟩ :: rest, z, n, hzr, hzip, hlast => by
    cases hzip with
    | consBlack c hrest hsib =>
      have hzip2 : ZipOK (⟨pd, .black, pv, ps⟩ :: rest) .red n :=
        ZipOK.consBlack .red hrest hsib
      obtain ⟨c2, m, hplug⟩ := plug_isRB hzip2 hzr
      obtain ⟨m2, hm2⟩ := setBlack_isRB hplug
      exact ⟨_, m2, by rw [fixInsert.eq_def]; simp, hm2⟩
    | consRed hrest hsib =>
      cases hrest with
      | nil =>
        exact absurd hlast (by simp [LastBlack])
      | consBlack c2 hrest2 hgsib =>
        rename_i rest2 gd gv gs cs
        have hlast3 : LastBlack rest2 := lastBlack_of_cons (lastBlack_of_cons hlast)
        cases hzr with
        | red hzl hzr2 =>
        rename_i zl zv zr
        cases gd with
        | left =>
          cases hgsib with
          | red hul hur =>
            rename_i ul uv ur
            cases pd with
            | left =>
              obtain ⟨t2, m, heq, hm⟩ := fixInsert_sound rest2
                (.node .red (.node .black (.node .red zl zv zr) pv ps) gv
                  (.node .black ul uv ur))
                (.red (.black (.red hzl hzr2) hsib) (.black hul hur)) hrest2 hlast3
              exact ⟨t2, m, by rw [fixInsert.eq_def]; simpa [plugFrame] using heq, hm⟩
            | right =>
              obtain ⟨t2, m, heq, hm⟩ := fixInsert_sound rest2
                (.node .red (.node .black ps pv (.node .red zl zv zr)) gv
                  (.node .black ul uv ur))
                (.red (.black hsib (.red hzl hzr2)) (.black hul hur)) hrest2 hlast3
              exact ⟨t2, m, by rw [fixInsert.eq_def]; simpa [plugFrame] using heq, hm⟩
          | nil =>
            cases pd with
            | right =>
              have hX : IsRB (.node .black (.node .red ps pv zl) zv
                  (.node .red zr gv .nil)) .black (0 + 1) :=
                .black (.red hsib hzl) (.red hzr2 .nil)
              obtain ⟨c3, m, hplug⟩ := plug_isRB hrest2 hX
              obtain ⟨m2, hm2⟩ := setBlack_isRB hplug
              exact ⟨_, m2, by rw [fixInsert.eq_def]; simp, hm2⟩
            | left =>
              have hX : IsRB (.node .black (.node .red zl zv zr) pv
                  (.node .red ps gv .nil)) .black (0 + 1) :=
                .black (.red hzl hzr2) (.red hsib .nil)
              obtain ⟨c3, m, hplug⟩ := plug_isRB hrest2 hX
              obtain ⟨m2, hm2⟩ := setBlack_isRB hplug
              exact ⟨_, m2, by rw [fixInsert.eq_def]; simp, hm2⟩
          | black hgl hgr =>
            rename_i gl gr gw nsub csl csr
            cases pd with
            | right =>
              have hX : IsRB (.node .black (.node .red ps pv zl) zv
                  (.node .red zr gv (.node .black gl gw gr))) .black (nsub + 1 + 1) :=
                .black (.red hsib hzl) (.red hzr2 (.black hgl hgr))
              obtain ⟨c3, m, hplug⟩ := plug_isRB hrest2 hX
              obtain ⟨m2, hm2⟩ := setBlack_isRB hplug
              exact ⟨_, m2, by rw [fixInsert.eq_def]; simp, hm2⟩
            | left =>
              have hX : IsRB (.node .black (.node .red zl zv zr) pv
                  (.node .red ps gv (.node .black gl gw gr))) .black (nsub + 1 + 1) :=
                .black (.red hzl hzr2) (.red hsib (.black hgl hgr))
              obtain ⟨c3, m, hplug⟩ := plug_isRB hrest2 hX
              obtain ⟨m2, hm2⟩ := setBlack_isRB hplug
              exact ⟨_, m2, by rw [fixInsert.eq_def]; simp, hm2⟩
        | right =>
          cases hgsib with
          | red hul hur =>
            rename_i ul uv ur
            cases pd with
            | left =>
              obtain ⟨t2, m, heq, hm⟩ := fixInsert_sound rest2
                (.node .red (.node .black ul uv ur) gv
                  (.node .black (.node .red zl zv zr) pv ps))
                (.red (.black hul hur) (.black (.red hzl hzr2) hsib)) hrest2 hlast3
              exact ⟨t2, m, by rw [fixInsert.eq_def]; simpa [plugFrame] using heq, hm⟩
            | right =>
              obtain ⟨t2, m, heq, hm⟩ := fixInsert_sound rest2
                (.node .red (.node .black ul uv ur) gv
                  (.node .black ps pv (.node .red zl zv zr)))
                (.red (.black hul hur) (.black hsib (.red hzl hzr2))) hrest2 hlast3
              exact ⟨t2, m, by rw [fixInsert.eq_def]; simpa [plugFrame] using heq, hm⟩
          | nil =>
            cases pd with
            | left =>
              have hX : IsRB (.node .black (.node .red .nil gv zl) zv
                  (.node .red zr pv ps)) .black (0 + 1) :=
                .black (.red .nil hzl) (.red hzr2 hsib)
              obtain ⟨c3, m, hplug⟩ := plug_isRB hrest2 hX
              obtain ⟨m2, hm2⟩ := setBlack_isRB hplug
              exact ⟨_, m2, by rw [fixInsert.eq_def]; simp, hm2⟩
            | right =>
              have hX : IsRB (.node .black (.node .red .nil gv ps) pv
                  (.node .red zl zv zr)) .black (0 + 1) :=
                .black (.red .nil hsib) (.red hzl hzr2)
              obtain ⟨c3, m, hplug⟩ := plug_isRB hrest2 hX
              obtain ⟨m2, hm2⟩ := setBlack_isRB hplug
              exact ⟨_, m2, by rw [fixInsert.eq_def]; simp, hm2⟩
          | black hgl hgr =>
            rename_i gl gr gw nsub csl csr
            cases pd with
            | left =>
              have hX : IsRB (.node .black (.node .red (.node .black gl gw gr) gv zl)
                  zv (.node .red zr pv ps)) .black (nsub + 1 + 1) :=
                .black (.red (.black hgl hgr) hzl) (.red hzr2 hsib)
              obtain ⟨c3, m, hplug⟩ := plug_isRB hrest2 hX
              obtain ⟨m2, hm2⟩ := setBlack_isRB hplug
              exact ⟨_, m2, by rw [fixInsert.eq_def]; simp, hm2⟩
            | right =>
              have hX : IsRB (.node .black (.node .red (.node .black gl gw gr) gv ps)
                  pv (.node .red zl zv zr)) .black (nsub + 1 + 1) :=
                .black (.red (.black hgl hgr) hsib) (.red hzl hzr2)
              obtain ⟨c3, m, hplug⟩ := plug_isRB hrest2 hX
              obtain ⟨m2, hm2⟩ := setBlack_isRB hplug
              exact ⟨_, m2, by rw [fixInsert.eq_def]; simp, hm2⟩

theorem descend_zipOK : ∀ {t : RBTree} {c : Color} {m : Nat} (v : Int)
    {ctx : List Frame}, IsRB t c m → ZipOK ctx c m →
    ZipOK (descend t v ctx) .black 0
  | .nil, _, _, v, ctx, ht, hctx => by
    cases ht
    exact hctx
  | .node cc l w r, _, _, v, ctx, ht, hctx => by
    cases ht with
    | red hl hr =>
      rw [descend]
      split
      · exact descend_zipOK v hl (ZipOK.consRed hctx hr)
      · exact descend_zipOK v hr (ZipOK.consRed hctx hl)
    | black hl hr =>
      rw [descend]
      split
      · exact descend_zipOK v hl (ZipOK.consBlack _ hctx hr)
      · exact descend_zipOK v hr (ZipOK.consBlack _ hctx hl)

theorem descend_lastBlack : ∀ (t : RBTree) (v : Int) (ctx : List Frame),
    (ctx = [] → rootBlack t = true) → LastBlack ctx → LastBlack (descend t v ctx)
  | .nil, _, _, _, hlast => hlast
  | .node c l w r, v, ctx, hroot, hlast => by
    have hfc : ∀ (f : Frame), f.color = c → LastBlack (f :: ctx) := by
      intro f hf
      cases ctx with
      | nil =>
        have := hroot rfl
        rw [rootBlack] at this
        simpa [LastBlack, hf] using this
      | cons g rest => exact hlast
    rw [descend]
    split
    · exact descend_lastBlack l v _ (by simp) (hfc _ rfl)
    · exact descend_lastBlack r v _ (by simp) (hfc _ rfl)

/-- The tree-level Red-Black invariant as established after each completed
insertion: valid with a black (or absent) root. -/
def RBValid (t : RBTree) : Prop := ∃ n, IsRB t .black n

theorem rootBlack_of_isRB {t : RBTree} {n : Nat} (h : IsRB t .black n) :
    rootBlack t = true := by
  cases h <;> rfl

/-- `redBlackInsert` never dereferences null and restores the Red-Black
invariant, starting from any tree satisfying it. -/
theorem redBlackInsert_sound {t : RBTree} (h : RBValid t) (v : Int) :
    ∃ t2, redBlackInsert t v = some t2 ∧ RBValid t2 := by
  obtain ⟨n, hn⟩ := h
  have hz : ZipOK (descend t v []) .black 0 :=
    descend_zipOK v hn (ZipOK.nil _ _)
  have hlb : LastBlack (descend t v []) :=
    descend_lastBlack t v [] (fun _ => rootBlack_of_isRB hn) trivial
  obtain ⟨t2, m, heq, hm⟩ := fixInsert_sound _ _ (.red .nil .nil) hz hlb
  exact ⟨t2, heq, m, hm⟩

theorem isRedB_false_of_black {t : RBTree} {n : Nat} (h : IsRB t .black n) :
    isRedB t = false := by
  cases h <;> rfl

theorem noRedRed_of_isRB : ∀ {t : RBTree} {c : Color} {n : Nat},
    IsRB t c n → noRedRed t = true := by
  intro t c n h
  induction h with
  | nil => rfl
  | red hl hr ihl ihr =>
    rw [noRedRed]
    simp [ihl, ihr, isRedB_false_of_black hl, isRedB_false_of_black hr]
  | black hl hr ihl ihr =>
    rw [noRedRed]
    simp [ihl, ihr]

theorem blackHeight_of_isRB : ∀ {t : RBTree} {c : Color} {n : Nat},
    IsRB t c n → blackHeight? t = some n := by
  intro t c n h
  induction h with
  | nil => rfl
  | red hl hr ihl ihr => rw [blackHeight?]; simp [ihl, ihr]
  | black hl hr ihl ihr => rw [blackHeight?]; simp [ihl, ihr]

/-- Invariant-carrying run of the Red-Black trace recorder. -/
theorem buildRBStepsGo_sound : ∀ (keys : List Int) (t : RBTree), RBValid t →
    sortedLe (rbInorder t) = true →
    ∃ l, buildRedBlackTreeStepsGo t keys = some l ∧ l.length = keys.length ∧
      ∀ s ∈ l, RBValid s ∧ sortedLe (rbInorder s) = true
  | [], t, _, _ => ⟨[], rfl, rfl, by simp⟩
  | v :: rest, t, hv, hs => by
    obtain ⟨t2, heq, hv2⟩ := redBlackInsert_sound hv v
    have hs2 : sortedLe (rbInorder t2) = true := redBlackInsert_sorted hs heq
    obtain ⟨l, heql, hlen, hall⟩ := buildRBStepsGo_sound rest t2 hv2 hs2
    refine ⟨t2 :: l, ?_, by simpa using hlen, ?_⟩
    · rw [buildRedBlackTreeStepsGo, heq, Option.some_bind, heql]
      rfl
    · intro s hsm
      rcases List.mem_cons.1 hsm with rfl | hsm
      · exact ⟨hv2, hs2⟩
      · exact hall s hsm

theorem rbFoldlM_sound : ∀ (keys : List Int) (t : RBTree), RBValid t →
    ∃ t2, List.foldlM redBlackInsert t keys = some t2 ∧ RBValid t2
  | [], t, h => ⟨t, rfl, h⟩
  | v :: rest, t, h => by
    obtain ⟨t2, heq, h2⟩ := redBlackInsert_sound h v
    obtain ⟨t3, heq3, h3⟩ := rbFoldlM_sound rest t2 h2
    exact ⟨t3, by rw [List.foldlM_cons, heq]; exact heq3, h3⟩

/-- The `fixInsert` loop runs at most `⌊depth/2⌋ + 1` iterations: every
iteration either leaves the loop or consumes two ancestor frames. -/
theorem fixInsertIters_le : ∀ (ctx : List Frame) (z : RBTree),
    fixInsertIters z ctx ≤ ctx.length / 2 + 1
  | [], z => by simp [fixInsertIters]
  | pf :: rest, z => by
    obtain ⟨pd, pc, pv, ps⟩ := pf
    cases pc with
    | black =>
      rw [fixInsertIters.eq_def]
      simp
    | red =>
      cases rest with
      | nil =>
        rw [fixInsertIters.eq_def]
        simp
      | cons gf rest2 =>
        obtain ⟨gd, gc, gv, gs⟩ := gf
        cases gd with
        | left =>
          cases gs with
          | nil =>
            rw [fixInsertIters.eq_def]
            simp
          | node c2 gl gw gr =>
            cases c2 with
            | black =>
              rw [fixInsertIters.eq_def]
              simp
            | red =>
              have hrec := fixInsertIters_le rest2
                (.node .red (plugFrame z ⟨pd, .black, pv, ps⟩) gv
                  (.node .black gl gw gr))
              rw [fixInsertIters.eq_def]
              simp only [List.length_cons]
              simp
              omega
        | right =>
          cases gs with
          | nil =>
            rw [fixInsertIters.eq_def]
            simp
          | node c2 gl gw gr =>
            cases c2 with
            | black =>
              rw [fixInsertIters.eq_def]
              simp
            | red =>
              have hrec := fixInsertIters_le rest2
                (.node .red (.node .black gl gw gr) gv
                  (plugFrame z ⟨pd, .black, pv, ps⟩))
              rw [fixInsertIters.eq_def]
              simp only [List.length_cons]
              simp
              omega

/-! ## AVL height bookkeeping -/

theorem realHeight_mkNode (l : AVLTree) (v : Int) (r : AVLTree) :
    realHeight (mkNode l v r) = 1 + max (realHeight l) (realHeight r) := rfl

theorem heightsOK_node_iff {l r : AVLTree} {v : Int} {hh : Nat} :
    heightsOK (.node l v hh r) = true ↔
      heightsOK l = true ∧ heightsOK r = true ∧
        hh = 1 + max (realHeight l) (realHeight r) := by
  rw [heightsOK]
  simp [Bool.and_eq_true, and_assoc]

theorem avlBalanced_node_iff {l r : AVLTree} {v : Int} {hh : Nat} :
    avlBalanced (.node l v hh r) = true ↔
      avlBalanced l = true ∧ avlBalanced r = true ∧
        ((realHeight l : Int) - (realHeight r : Int)).natAbs ≤ 1 := by
  rw [avlBalanced]
  simp [Bool.and_eq_true, and_assoc]

theorem getHeight_eq_real {t : AVLTree} (h : heightsOK t = true) :
    getHeight t = realHeight t := by
  cases t with
  | nil => rfl
  | node l v hh r =>
    rw [heightsOK_node_iff] at h
    rw [getHeight, realHeight]
    exact h.2.2

theorem heightsOK_mkNode {l r : AVLTree} (v : Int)
    (hl : heightsOK l = true) (hr : heightsOK r = true) :
    heightsOK (mkNode l v r) = true := by
  rw [mkNode, heightsOK_node_iff, getHeight_eq_real hl, getHeight_eq_real hr]
  exact ⟨hl, hr, rfl⟩

theorem ne_nil_of_realHeight_pos {t : AVLTree} (h : 0 < realHeight t) :
    t ≠ .nil := by
  intro heq
  rw [heq, realHeight] at h
  exact absurd h (by simp)

theorem rootVal_mem {t : AVLTree} (h : t ≠ .nil) : rootVal t ∈ inorder t := by
  cases t with
  | nil => exact absurd rfl h
  | node l v hh r => simp [rootVal, inorder]

/-- Behaviour of the unwind phase when the insertion went into the left
subtree (`v < tv`): given the recursion invariants for the updated left
child `l2` of the original child `l`, the guarded rebalancing cases restore
balance, keep memoized heights accurate, and grow the subtree height by at
most one, with a left-leaning root exactly on growth. -/
theorem avlRebalanceL_spec {l l2 r : AVLTree} {tv v : Int}
    (hOKl2 : heightsOK l2 = true) (hOKr : heightsOK r = true)
    (hBl2 : avlBalanced l2 = true) (hBr : avlBalanced r = true)
    (hpre : ((realHeight l : Int) - (realHeight r : Int)).natAbs ≤ 1)
    (hlow : realHeight l ≤ realHeight l2)
    (hhigh : realHeight l2 ≤ realHeight l + 1)
    (hgrow : realHeight l2 = realHeight l + 1 → l ≠ .nil →
      rootVal l2 = rootVal l ∧ bfR l2 ≠ 0 ∧ (bfR l2 = 1 ↔ v < rootVal l))
    (hfresh : l ≠ .nil → v ≠ rootVal l) :
    ∃ t2, avlRebalance l2 tv r v = some t2 ∧ heightsOK t2 = true ∧
      avlBalanced t2 = true ∧
      1 + max (realHeight l) (realHeight r) ≤ realHeight t2 ∧
      realHeight t2 ≤ 2 + max (realHeight l) (realHeight r) ∧
      (realHeight t2 = 2 + max (realHeight l) (realHeight r) →
        rootVal t2 = tv ∧ bfR t2 = 1) := by
  have hgl2 := getHeight_eq_real hOKl2
  have hgr := getHeight_eq_real hOKr
  simp only [avlRebalance, hgl2, hgr]
  split
  · -- balance > 1: the left subtree grew two above the right
    rename_i hb
    have h1 : realHeight l2 = realHeight r + 2 := by omega
    have h2 : realHeight l = realHeight r + 1 := by omega
    have hlne : l ≠ .nil := ne_nil_of_realHeight_pos (by omega)
    obtain ⟨hroot, hbf0, hbfiff⟩ := hgrow (by omega) hlne
    have hvne : v ≠ rootVal l := hfresh hlne
    cases l2 with
    | nil => rw [realHeight] at h1; omega
    | node ll lv lh2 lr =>
      rw [heightsOK_node_iff] at hOKl2
      obtain ⟨hOKll, hOKlr, hlh2⟩ := hOKl2
      rw [avlBalanced_node_iff] at hBl2
      obtain ⟨hBll, hBlr, hbll⟩ := hBl2
      rw [realHeight] at h1
      have hlv : rootVal l = lv := by rw [← hroot]; rfl
      have hbfl2 : bfR (AVLTree.node ll lv lh2 lr) =
        (realHeight ll : Int) - (realHeight lr : Int) := rfl
      rw [hbfl2] at hbf0 hbfiff
      dsimp only
      split
      · -- v < lv : Left-Left, single right rotation
        rename_i hvlv
        have hbf1 : (realHeight ll : Int) - (realHeight lr : Int) = 1 :=
          hbfiff.2 (by rw [hlv]; exact hvlv)
        rw [rightRotate]
        refine ⟨_, rfl, ?_, ?_, ?_, ?_, ?_⟩
        · exact heightsOK_mkNode lv hOKll (heightsOK_mkNode tv hOKlr hOKr)
        · rw [mkNode, avlBalanced_node_iff]
          refine ⟨hBll, ?_, ?_⟩
          · rw [mkNode, avlBalanced_node_iff]
            exact ⟨hBlr, hBr, by omega⟩
          · rw [realHeight_mkNode]
            omega
        · rw [realHeight_mkNode, realHeight_mkNode]
          omega
        · rw [realHeight_mkNode, realHeight_mkNode]
          omega
        · rw [realHeight_mkNode, realHeight_mkNode]
          intro hcon
          exfalso
          omega
      · split
        · -- lv < v : Left-Right, double rotation
          rename_i hnvlv hlvv
          have hbfm1 : (realHeight ll : Int) - (realHeight lr : Int) = -1 := by
            have : ¬((realHeight ll : Int) - (realHeight lr : Int) = 1) := by
              intro hx
              exact absurd (hbfiff.1 hx) (by rw [hlv]; exact not_lt.2 (le_of_lt hlvv))
            omega
          cases lr with
          | nil =>
            rw [realHeight] at hbfm1 h1
            omega
          | node a m mh b =>
            rw [heightsOK_node_iff] at hOKlr
            obtain ⟨hOKa, hOKb, hmh⟩ := hOKlr
            rw [avlBalanced_node_iff] at hBlr
            obtain ⟨hBa, hBb, hab⟩ := hBlr
            rw [realHeight] at hbfm1 h1 hbll
            rw [leftRotate]
            dsimp only
            rw [show mkNode (mkNode ll lv a) m b =
              AVLTree.node (mkNode ll lv a) m
                (1 + max (getHeight (mkNode ll lv a)) (getHeight b)) b from rfl,
              rightRotate]
            refine ⟨_, rfl, ?_, ?_, ?_, ?_, ?_⟩
            · exact heightsOK_mkNode m (heightsOK_mkNode lv hOKll hOKa)
                (heightsOK_mkNode tv hOKb hOKr)
            · rw [mkNode, avlBalanced_node_iff]
              refine ⟨?_, ?_, ?_⟩
              · rw [mkNode, avlBalanced_node_iff]
                exact ⟨hBll, hBa, by omega⟩
              · rw [mkNode, avlBalanced_node_iff]
                exact ⟨hBb, hBr, by omega⟩
              · rw [realHeight_mkNode, realHeight_mkNode]
                omega
            · rw [realHeight_mkNode, realHeight_mkNode, realHeight_mkNode]
              omega
            · rw [realHeight_mkNode, realHeight_mkNode, realHeight_mkNode]
              omega
            · rw [realHeight_mkNode, realHeight_mkNode, realHeight_mkNode]
              intro hcon
              exfalso
              omega
        · -- v = lv : impossible for a fresh key
          rename_i hnvlv hnlvv
          exfalso
          exact hvne (by rw [hlv]; omega)
  · split
    · -- balance < -1 : impossible when the insertion went left
      rename_i hnb hb2
      exfalso
      omega
    · -- |balance| ≤ 1 : no rotation, height field updated
      rename_i hnb hnb2
      refine ⟨_, rfl, ?_, ?_, ?_, ?_, ?_⟩
      · rw [heightsOK_node_iff]
        exact ⟨hOKl2, hOKr, rfl⟩
      · rw [avlBalanced_node_iff]
        exact ⟨hBl2, hBr, by omega⟩
      · rw [realHeight]
        omega
      · rw [realHeight]
        omega
      · rw [realHeight]
        intro hgr2
        refine ⟨rfl, ?_⟩
        have hbf : bfR (AVLTree.node l2 tv
            (1 + max (realHeight l2) (realHeight r)) r) =
          (realHeight l2 : Int) - (realHeight r : Int) := rfl
        rw [hbf]
        omega

/-- Mirror of `avlRebalanceL_spec` for an insertion that went into the
right subtree: the root leans right exactly on growth. -/
theorem avlRebalanceR_spec {l r r2 : AVLTree} {tv v : Int}
    (hOKl : heightsOK l = true) (hOKr2 : heightsOK r2 = true)
    (hBl : avlBalanced l = true) (hBr2 : avlBalanced r2 = true)
    (hpre : ((realHeight l : Int) - (realHeight r : Int)).natAbs ≤ 1)
    (hlow : realHeight r ≤ realHeight r2)
    (hhigh : realHeight r2 ≤ realHeight r + 1)
    (hgrow : realHeight r2 = realHeight r + 1 → r ≠ .nil →
      rootVal r2 = rootVal r ∧ bfR r2 ≠ 0 ∧ (bfR r2 = 1 ↔ v < rootVal r))
    (hfresh : r ≠ .nil → v ≠ rootVal r) :
    ∃ t2, avlRebalance l tv r2 v = some t2 ∧ heightsOK t2 = true ∧
      avlBalanced t2 = true ∧
      1 + max (realHeight l) (realHeight r) ≤ realHeight t2 ∧
      realHeight t2 ≤ 2 + max (realHeight l) (realHeight r) ∧
      (realHeight t2 = 2 + max (realHeight l) (realHeight r) →
        rootVal t2 = tv ∧ bfR t2 = -1) := by
  have hgl := getHeight_eq_real hOKl
  have hgr2 := getHeight_eq_real hOKr2
  simp only [avlRebalance, hgl, hgr2]
  split
  · -- balance > 1 : impossible when the insertion went right
    rename_i hb
    exfalso
    omega
  · split
    · -- balance < -1 : the right subtree grew two above the left
      rename_i hnb hb
      have h1 : realHeight r2 = realHeight l + 2 := by omega
      have h2 : realHeight r = realHeight l + 1 := by omega
      have hrne : r ≠ .nil := ne_nil_of_realHeight_pos (by omega)
      obtain ⟨hroot, hbf0, hbfiff⟩ := hgrow (by omega) hrne
      have hvne : v ≠ rootVal r := hfresh hrne
      cases r2 with
      | nil => rw [realHeight] at h1; omega
      | node rl rrv rh3 rr =>
        rw [heightsOK_node_iff] at hOKr2
        obtain ⟨hOKrl, hOKrr, hrh3⟩ := hOKr2
        rw [avlBalanced_node_iff] at hBr2
        obtain ⟨hBrl, hBrr, hbrr⟩ := hBr2
        rw [realHeight] at h1
        have hrv : rootVal r = rrv := by rw [← hroot]; rfl
        have hbfr2 : bfR (AVLTree.node rl rrv rh3 rr) =
          (realHeight rl : Int) - (realHeight rr : Int) := rfl
        rw [hbfr2] at hbf0 hbfiff
        dsimp only
        split
        · -- rrv < v : Right-Right, single left rotation
          rename_i hrrvv
          have hbfm1 : (realHeight rl : Int) - (realHeight rr : Int) = -1 := by
            have : ¬((realHeight rl : Int) - (realHeight rr : Int) = 1) := by
              intro hx
              exact absurd (hbfiff.1 hx) (by rw [hrv]; exact not_lt.2 (le_of_lt hrrvv))
            omega
          rw [leftRotate]
          refine ⟨_, rfl, ?_, ?_, ?_, ?_, ?_⟩
          · exact heightsOK_mkNode rrv (heightsOK_mkNode tv hOKl hOKrl) hOKrr
          · rw [mkNode, avlBalanced_node_iff]
            refine ⟨?_, hBrr, ?_⟩
            · rw [mkNode, avlBalanced_node_iff]
              exact ⟨hBl, hBrl, by omega⟩
            · rw [realHeight_mkNode]
              omega
          · rw [realHeight_mkNode, realHeight_mkNode]
            omega
          · rw [realHeight_mkNode, realHeight_mkNode]
            omega
          · rw [realHeight_mkNode, realHeight_mkNode]
            intro hcon
            exfalso
            omega
        · split
          · -- v < rrv : Right-Left, double rotation
            rename_i hnrrvv hvrrv
            have hbf1 : (realHeight rl : Int) - (realHeight rr : Int) = 1 :=
              hbfiff.2 (by rw [hrv]; exact hvrrv)
            cases rl with
            | nil =>
              rw [realHeight] at hbf1 h1
              omega
            | node a m mh b =>
              rw [heightsOK_node_iff] at hOKrl
              obtain ⟨hOKa, hOKb, hmh⟩ := hOKrl
              rw [avlBalanced_node_iff] at hBrl
              obtain ⟨hBa, hBb, hab⟩ := hBrl
              rw [realHeight] at hbf1 h1 hbrr
              rw [rightRotate]
              dsimp only
              rw [show mkNode a m (mkNode b rrv rr) =
                AVLTree.node a m
                  (1 + max (getHeight a) (getHeight (mkNode b rrv rr)))
                  (mkNode b rrv rr) from rfl,
                leftRotate]
              refine ⟨_, rfl, ?_, ?_, ?_, ?_, ?_⟩
              · exact heightsOK_mkNode m (heightsOK_mkNode tv hOKl hOKa)
                  (heightsOK_mkNode rrv hOKb hOKrr)
              · rw [mkNode, avlBalanced_node_iff]
                refine ⟨?_, ?_, ?_⟩
                · rw [mkNode, avlBalanced_node_iff]
                  exact ⟨hBl, hBa, by omega⟩
                · rw [mkNode, avlBalanced_node_iff]
                  exact ⟨hBb, hBrr, by omega⟩
                · rw [realHeight_mkNode, realHeight_mkNode]
                  omega
              · rw [realHeight_mkNode, realHeight_mkNode, realHeight_mkNode]
                omega
              · rw [realHeight_mkNode, realHeight_mkNode, realHeight_mkNode]
                omega
              · rw [realHeight_mkNode, realHeight_mkNode, realHeight_mkNode]
                intro hcon
                exfalso
                omega
          · -- v = rrv : impossible for a fresh key
            rename_i hnrrvv hnvrrv
            exfalso
            exact hvne (by rw [hrv]; omega)
    · -- |balance| ≤ 1 : no rotation, height field updated
      rename_i hnb hnb2
      refine ⟨_, rfl, ?_, ?_, ?_, ?_, ?_⟩
      · rw [heightsOK_node_iff]
        exact ⟨hOKl, hOKr2, rfl⟩
      · rw [avlBalanced_node_iff]
        exact ⟨hBl, hBr2, by omega⟩
      · rw [realHeight]
        omega
      · rw [realHeight]
        omega
      · rw [realHeight]
        intro hgr3
        refine ⟨rfl, ?_⟩
        have hbf : bfR (AVLTree.node l tv
            (1 + max (realHeight l) (realHeight r2)) r2) =
          (realHeight l : Int) - (realHeight r2 : Int) := rfl
        rw [hbf]
        omega

/-- Main invariant lemma for `avlInsert` on duplicate-free input: starting
from a tree with accurate heights and the AVL balance invariant, inserting
a fresh key succeeds (no rotation ever dereferences null), preserves both
invariants, and grows the height by at most one, with a non-zero balance
factor leaning toward the inserted side exactly on growth. -/
theorem avlInsert_main : ∀ (t : AVLTree) (v : Int),
    heightsOK t = true → avlBalanced t = true → v ∉ inorder t →
    ∃ t2, avlInsert t v = some t2 ∧ heightsOK t2 = true ∧
      avlBalanced t2 = true ∧
      realHeight t ≤ realHeight t2 ∧ realHeight t2 ≤ realHeight t + 1 ∧
      (realHeight t2 = realHeight t + 1 → t ≠ .nil →
        rootVal t2 = rootVal t ∧ bfR t2 ≠ 0 ∧ (bfR t2 = 1 ↔ v < rootVal t))
  | .nil, v, _, _, _ => by
    refine ⟨.node .nil v 1 .nil, by rw [avlInsert], rfl, rfl, ?_, ?_, ?_⟩
    · simp [realHeight]
    · simp [realHeight]
    · intro _ hne
      exact absurd rfl hne
  | .node l tv th r, v, hOK, hBal, hmem => by
    rw [heightsOK_node_iff] at hOK
    obtain ⟨hOKl, hOKr, hth⟩ := hOK
    rw [avlBalanced_node_iff] at hBal
    obtain ⟨hBl, hBr, hbal⟩ := hBal
    rw [inorder] at hmem
    have hmeml : v ∉ inorder l := fun hm => hmem (List.mem_append.2 (Or.inl hm))
    have hmemr : v ∉ inorder r := fun hm =>
      hmem (List.mem_append.2 (Or.inr (List.mem_cons_of_mem _ hm)))
    have hmemv : v ≠ tv := fun he =>
      hmem (List.mem_append.2 (Or.inr (he ▸ List.mem_cons_self _ _)))
    rw [avlInsert]
    by_cases hvt : v < tv
    · rw [if_pos hvt]
      obtain ⟨l2, heql, hOKl2, hBl2, hlow, hhigh, hgrow⟩ :=
        avlInsert_main l v hOKl hBl hmeml
      have hfreshl : l ≠ .nil → v ≠ rootVal l := fun hne he =>
        hmeml (he ▸ rootVal_mem hne)
      obtain ⟨t2, heq2, hOKt2, hBt2, hlow2, hhigh2, hgrow2⟩ :=
        avlRebalanceL_spec hOKl2 hOKr hBl2 hBr hbal hlow hhigh hgrow hfreshl
      refine ⟨t2, ?_, hOKt2, hBt2, ?_, ?_, ?_⟩
      · rw [heql, Option.some_bind]
        exact heq2
      · rw [realHeight]
        exact hlow2
      · rw [realHeight]
        omega
      · rw [realHeight]
        intro hg _
        obtain ⟨hr2, hbf2⟩ := hgrow2 (by omega)
        refine ⟨by rw [hr2]; rfl, by rw [hbf2]; omega, ?_⟩
        constructor
        · intro _
          exact hvt
        · intro _
          exact hbf2
    · rw [if_neg hvt]
      obtain ⟨r2, heqr, hOKr2, hBr2, hlow, hhigh, hgrow⟩ :=
        avlInsert_main r v hOKr hBr hmemr
      have hfreshr : r ≠ .nil → v ≠ rootVal r := fun hne he =>
        hmemr (he ▸ rootVal_mem hne)
      obtain ⟨t2, heq2, hOKt2, hBt2, hlow2, hhigh2, hgrow2⟩ :=
        avlRebalanceR_spec hOKl hOKr2 hBl hBr2 hbal hlow hhigh hgrow hfreshr
      refine ⟨t2, ?_, hOKt2, hBt2, ?_, ?_, ?_⟩
      · rw [heqr, Option.some_bind]
        exact heq2
      · rw [realHeight]
        exact hlow2
      · rw [realHeight]
        omega
      · rw [realHeight]
        intro hg _
        obtain ⟨hr2, hbf2⟩ := hgrow2 (by omega)
        refine ⟨by rw [hr2]; rfl, by rw [hbf2]; omega, ?_⟩
        constructor
        · intro hb1
          rw [hbf2] at hb1
          exact absurd hb1 (by omega)
        · intro hlt
          exact absurd hlt hvt

/-- The unwind phase always leaves accurate memoized heights, regardless
of balance (used for arbitrary key sequences, duplicates included). -/
theorem avlRebalance_heightsOK {l r t2 : AVLTree} {rv v : Int}
    (hl : heightsOK l = true) (hr : heightsOK r = true)
    (h : avlRebalance l rv r v = some t2) : heightsOK t2 = true := by
  simp only [avlRebalance] at h
  split at h
  · cases l with
    | nil => simp at h
    | node ll lv lh lr =>
      dsimp only at h
      rw [heightsOK_node_iff] at hl
      obtain ⟨hll, hlr, hlh⟩ := hl
      split at h
      · rw [rightRotate] at h
        cases h
        exact heightsOK_mkNode lv hll (heightsOK_mkNode rv hlr hr)
      · split at h
        · cases lr with
          | nil => simp [leftRotate] at h
          | node a m mh b =>
            rw [leftRotate] at h
            dsimp only at h
            rw [show mkNode (mkNode ll lv a) m b =
              AVLTree.node (mkNode ll lv a) m
                (1 + max (getHeight (mkNode ll lv a)) (getHeight b)) b from rfl,
              rightRotate] at h
            cases h
            rw [heightsOK_node_iff] at hlr
            obtain ⟨ha, hb, hmh⟩ := hlr
            exact heightsOK_mkNode m (heightsOK_mkNode lv hll ha)
              (heightsOK_mkNode rv hb hr)
        · cases h
          rw [heightsOK_node_iff]
          refine ⟨heightsOK_node_iff.2 ⟨hll, hlr, hlh⟩, hr, ?_⟩
          rw [getHeight_eq_real (heightsOK_node_iff.2 ⟨hll, hlr, hlh⟩),
            getHeight_eq_real hr]
  · split at h
    · cases r with
      | nil => simp at h
      | node rl rrv rh3 rr =>
        dsimp only at h
        rw [heightsOK_node_iff] at hr
        obtain ⟨hrl, hrr, hrh⟩ := hr
        split at h
        · rw [leftRotate] at h
          cases h
          exact heightsOK_mkNode rrv (heightsOK_mkNode rv hl hrl) hrr
        · split at h
          · cases rl with
            | nil => simp [rightRotate] at h
            | node a m mh b =>
              rw [rightRotate] at h
              dsimp only at h
              rw [show mkNode a m (mkNode b rrv rr) =
                AVLTree.node a m
                  (1 + max (getHeight a) (getHeight (mkNode b rrv rr)))
                  (mkNode b rrv rr) from rfl,
                leftRotate] at h
              cases h
              rw [heightsOK_node_iff] at hrl
              obtain ⟨ha, hb, hmh⟩ := hrl
              exact heightsOK_mkNode m (heightsOK_mkNode rv hl ha)
                (heightsOK_mkNode rrv hb hrr)
          · cases h
            rw [heightsOK_node_iff]
            refine ⟨hl, heightsOK_node_iff.2 ⟨hrl, hrr, hrh⟩, ?_⟩
            rw [getHeight_eq_real (heightsOK_node_iff.2 ⟨hrl, hrr, hrh⟩),
              getHeight_eq_real hl]
    · cases h
      rw [heightsOK_node_iff]
      exact ⟨hl, hr, by rw [getHeight_eq_real hl, getHeight_eq_real hr]⟩

/-- `avlInsert` keeps memoized heights accurate whenever it completes. -/
theorem avlInsert_heightsOK : ∀ {t : AVLTree} {v : Int} {t2 : AVLTree},
    heightsOK t = true → avlInsert t v = some t2 → heightsOK t2 = true
  | .nil, v, t2, _, h => by
    rw [avlInsert] at h
    cases h
    rfl
  | .node l rv hh r, v, t2, hOK, h => by
    rw [heightsOK_node_iff] at hOK
    obtain ⟨hl, hr, _⟩ := hOK
    rw [avlInsert] at h
    split at h
    · cases heq : avlInsert l v with
      | none => rw [heq] at h; exact absurd h (by simp)
      | some l2 =>
        rw [heq, Option.some_bind] at h
        exact avlRebalance_heightsOK (avlInsert_heightsOK hl heq) hr h
    · cases heq : avlInsert r v with
      | none => rw [heq] at h; exact absurd h (by simp)
      | some r2 =>
        rw [heq, Option.some_bind] at h
        exact avlRebalance_heightsOK hl (avlInsert_heightsOK hr heq) h

theorem mem_inorderIns : ∀ {t : AVLTree} {v x : Int},
    x ∈ inorderIns t v ↔ x ∈ inorder t ∨ x = v
  | .nil, v, x => by simp [inorderIns, inorder]
  | .node l w hh r, v, x => by
    rw [inorderIns]
    split
    · simp only [List.mem_append, List.mem_cons, inorder, mem_inorderIns]
      tauto
    · simp only [List.mem_append, List.mem_cons, inorder, mem_inorderIns]
      tauto

theorem avlFoldlM_heightsOK : ∀ (keys : List Int) {t t2 : AVLTree},
    heightsOK t = true → List.foldlM avlInsert t keys = some t2 →
    heightsOK t2 = true
  | [], t, t2, h, heq => by
    rw [List.foldlM_nil] at heq
    cases heq
    exact h
  | v :: rest, t, t2, h, heq => by
    rw [List.foldlM_cons] at heq
    cases hins : avlInsert t v with
    | none => rw [hins] at heq; exact absurd heq (by simp)
    | some t3 =>
      rw [hins] at heq
      exact avlFoldlM_heightsOK rest (avlInsert_heightsOK h hins) heq

theorem buildAVLStepsGo_length : ∀ (keys : List Int) (t : AVLTree)
    {l : List AVLTree}, buildAVLTreeStepsGo t keys = some l →
    l.length = keys.length
  | [], t, l, h => by
    rw [buildAVLTreeStepsGo] at h
    cases h
    rfl
  | v :: rest, t, l, h => by
    rw [buildAVLTreeStepsGo] at h
    cases hins : avlInsert t v with
    | none => rw [hins] at h; exact absurd h (by simp)
    | some t2 =>
      rw [hins, Option.some_bind] at h
      cases hgo : buildAVLTreeStepsGo t2 rest with
      | none => rw [hgo] at h; exact absurd h (by simp)
      | some steps =>
        rw [hgo] at h
        cases h
        simp [buildAVLStepsGo_length rest t2 hgo]

theorem buildAVLStepsGo_sorted : ∀ (keys : List Int) (t : AVLTree)
    {l : List AVLTree}, sortedLe (inorder t) = true →
    buildAVLTreeStepsGo t keys = some l →
    ∀ s ∈ l, sortedLe (inorder s) = true
  | [], t, l, _, h => by
    rw [buildAVLTreeStepsGo] at h
    cases h
    simp
  | v :: rest, t, l, hs, h => by
    rw [buildAVLTreeStepsGo] at h
    cases hins : avlInsert t v with
    | none => rw [hins] at h; exact absurd h (by simp)
    | some t2 =>
      rw [hins, Option.some_bind] at h
      cases hgo : buildAVLTreeStepsGo t2 rest with
      | none => rw [hgo] at h; exact absurd h (by simp)
      | some steps =>
        rw [hgo] at h
        cases h
        have hs2 : sortedLe (inorder t2) = true := avlInsert_sorted hs hins
        intro s hsm
        rcases List.mem_cons.1 hsm with rfl | hsm
        · exact hs2
        · exact buildAVLStepsGo_sorted rest t2 hs2 hgo s hsm

/-- Invariant-carrying run of the AVL trace recorder on duplicate-free
keys: the build succeeds and every snapshot is balanced with accurate
heights. -/
theorem buildAVLStepsGo_nodup : ∀ (keys : List Int) (t : AVLTree),
    heightsOK t = true → avlBalanced t = true →
    (∀ k ∈ keys, k ∉ inorder t) → keys.Nodup →
    ∃ l, buildAVLTreeStepsGo t keys = some l ∧
      ∀ s ∈ l, heightsOK s = true ∧ avlBalanced s = true
  | [], t, _, _, _, _ => ⟨[], rfl, by simp⟩
  | v :: rest, t, hOK, hB, hfresh, hnd => by
    obtain ⟨t2, heq, hOK2, hB2, _, _, _⟩ :=
      avlInsert_main t v hOK hB (hfresh v (List.mem_cons_self v rest))
    have hfresh2 : ∀ k ∈ rest, k ∉ inorder t2 := by
      intro k hk hkmem
      rw [avlInsert_inorder heq] at hkmem
      rcases mem_inorderIns.1 hkmem with hold | rfl
      · exact hfresh k (List.mem_cons_of_mem v hk) hold
      · exact (List.nodup_cons.1 hnd).1 hk
    obtain ⟨l, heql, hall⟩ := buildAVLStepsGo_nodup rest t2 hOK2 hB2 hfresh2
      (List.nodup_cons.1 hnd).2
    refine ⟨t2 :: l, ?_, ?_⟩
    · rw [buildAVLTreeStepsGo, heq, Option.some_bind, heql]
      rfl
    · intro s hsm
      rcases List.mem_cons.1 hsm with rfl | hsm
      · exact ⟨hOK2, hB2⟩
      · exact hall s hsm

/-- Folding `avlInsert` over duplicate-free keys never crashes. -/
theorem avlFoldlM_nodup : ∀ (keys : List Int) (t : AVLTree),
    heightsOK t = true → avlBalanced t = true →
    (∀ k ∈ keys, k ∉ inorder t) → keys.Nodup →
    ∃ t2, List.foldlM avlInsert t keys = some t2
  | [], t, _, _, _, _ => ⟨t, rfl⟩
  | v :: rest, t, hOK, hB, hfresh, hnd => by
    obtain ⟨t2, heq, hOK2, hB2, _, _, _⟩ :=
      avlInsert_main t v hOK hB (hfresh v (List.mem_cons_self v rest))
    have hfresh2 : ∀ k ∈ rest, k ∉ inorder t2 := by
      intro k hk hkmem
      rw [avlInsert_inorder heq] at hkmem
      rcases mem_inorderIns.1 hkmem with hold | rfl
      · exact hfresh k (List.mem_cons_of_mem v hk) hold
      · exact (List.nodup_cons.1 hnd).1 hk
    obtain ⟨t3, heq3⟩ := avlFoldlM_nodup rest t2 hOK2 hB2 hfresh2
      (List.nodup_cons.1 hnd).2
    exact ⟨t3, by rw [List.foldlM_cons, heq]; exact heq3⟩

/-! ## Claim theorems -/

/-- Claim C1, counterexample: the claim quantifies over every finite key
sequence, but inserting `[1, 1, 1]` (duplicates route right and the
rebalancing guards never fire on equal keys) yields a right chain of
height 3 whose root violates `|height(left) − height(right)| ≤ 1`. -/
theorem C1_counterexample :
    avlInsertList [1, 1, 1] =
      some (.node .nil 1 3 (.node .nil 1 2 (.node .nil 1 1 .nil))) ∧
    avlBalanced (.node .nil 1 3 (.node .nil 1 2 (.node .nil 1 1 .nil))) = false :=
  ⟨by decide, by decide⟩

/-- Claim C1, amended: for every duplicate-free finite sequence of keys
inserted one-by-one via `avlInsert` from the empty tree, every recorded
tree satisfies the AVL balance invariant at every node. -/
theorem C1_avl_balance (keys : List Int) (hnd : keys.Nodup) :
    ∃ l, buildAVLTreeSteps keys = some l ∧ ∀ s ∈ l, avlBalanced s = true := by
  obtain ⟨l, heq, hall⟩ :=
    buildAVLStepsGo_nodup keys .nil rfl rfl (by simp [inorder]) hnd
  exact ⟨l, heq, fun s hs => (hall s hs).2⟩

theorem C1_avl_balance_witness :
    ∃ l, buildAVLTreeSteps [2, 1, 3] = some l ∧ ∀ s ∈ l, avlBalanced s = true :=
  C1_avl_balance [2, 1, 3] (by decide)

/-- Claim C2: for every finite key sequence (duplicates included), every
snapshot recorded by the Red-Black engine satisfies all three Red-Black
invariants: black root, no red node with a red child, and equal black
count on every path to a null leaf. -/
theorem C2_red_black_invariants (keys : List Int) :
    ∃ l, buildRedBlackTreeSteps keys = some l ∧ ∀ s ∈ l,
      rootBlack s = true ∧ noRedRed s = true ∧ (blackHeight? s).isSome = true := by
  obtain ⟨l, heq, _, hall⟩ := buildRBStepsGo_sound keys .nil ⟨0, .nil⟩ rfl
  refine ⟨l, heq, fun s hs => ?_⟩
  obtain ⟨⟨n, hn⟩, _⟩ := hall s hs
  exact ⟨rootBlack_of_isRB hn, noRedRed_of_isRB hn,
    by rw [blackHeight_of_isRB hn]; rfl⟩

theorem C2_red_black_invariants_witness :
    ∃ l, buildRedBlackTreeSteps [10, 20, 30] = some l ∧ ∀ s ∈ l,
      rootBlack s = true ∧ noRedRed s = true ∧ (blackHeight? s).isSome = true :=
  C2_red_black_invariants [10, 20, 30]

/-- Claim C3, counterexample: inserting a duplicate key does not always
succeed.  After `[1, 2, 2, 2, 2]` the tree is a degenerate right chain
containing `1`; inserting the duplicate key `1` fires the Right-Left guard
and `rightRotate(root.right)` dereferences the null `root.right.left`. -/
theorem C3_counterexample :
    avlInsertList [1, 2, 2, 2, 2] =
      some (.node .nil 1 5 (.node .nil 2 4 (.node .nil 2 3
        (.node .nil 2 2 (.node .nil 2 1 .nil))))) ∧
    (1 : Int) ∈ inorder (.node .nil 1 5 (.node .nil 2 4 (.node .nil 2 3
        (.node .nil 2 2 (.node .nil 2 1 .nil))))) ∧
    avlInsert (.node .nil 1 5 (.node .nil 2 4 (.node .nil 2 3
        (.node .nil 2 2 (.node .nil 2 1 .nil))))) 1 = none :=
  ⟨by decide, by decide, by decide⟩

/-- Claim C3, amended: in both engines the downward walk routes a key
strictly less than the node value left and any other key right, so
whenever an insertion completes, the new key lands after every existing
key `≤ v` and before every key `> v` in the in-order sequence — in
particular a duplicate lands to the right of all existing equal keys.
Red-Black insertion always completes on reachable trees; AVL insertion
may crash instead of completing. -/
theorem C3_duplicate_routing :
    (∀ (t : AVLTree) (v : Int) (t2 : AVLTree), sortedLe (inorder t) = true →
      avlInsert t v = some t2 →
      inorder t2 = lowPart (inorder t) v ++ v :: highPart (inorder t) v) ∧
    (∀ (t : RBTree) (v : Int) (t2 : RBTree), sortedLe (rbInorder t) = true →
      redBlackInsert t v = some t2 →
      rbInorder t2 = lowPart (rbInorder t) v ++ v :: highPart (rbInorder t) v) ∧
    (∀ (t : RBTree) (v : Int), RBValid t →
      ∃ t2, redBlackInsert t v = some t2) := by
  refine ⟨?_, ?_, ?_⟩
  · intro t v t2 hs h
    rw [avlInsert_inorder h, inorderIns_decomp v hs]
  · intro t v t2 hs h
    rw [redBlackInsert_inorder h, rbInsertUnbalanced_decomp v hs]
  · intro t v hval
    obtain ⟨t2, heq, _⟩ := redBlackInsert_sound hval v
    exact ⟨t2, heq⟩

theorem C3_duplicate_routing_witness :
    inorder (.node (.node .nil 1 1 .nil) 1 2 (.node .nil 2 1 .nil)) =
      lowPart (inorder (.node (.node .nil 1 1 .nil) 1 2 .nil)) 2 ++ 2 ::
        highPart (inorder (.node (.node .nil 1 1 .nil) 1 2 .nil)) 2 :=
  C3_duplicate_routing.1 (.node (.node .nil 1 1 .nil) 1 2 .nil) 2
    (.node (.node .nil 1 1 .nil) 1 2 (.node .nil 2 1 .nil))
    (by decide) (by decide)

/-- Claim C4: for every key sequence and both engines, every snapshot of
the recorded trace has a non-decreasing in-order key sequence. -/
theorem C4_bst_order (keys : List Int) :
    (∀ l, buildAVLTreeSteps keys = some l →
      ∀ s ∈ l, sortedLe (inorder s) = true) ∧
    (∃ l, buildRedBlackTreeSteps keys = some l ∧
      ∀ s ∈ l, sortedLe (rbInorder s) = true) := by
  constructor
  · intro l h
    exact buildAVLStepsGo_sorted keys .nil rfl h
  · obtain ⟨l, heq, _, hall⟩ := buildRBStepsGo_sound keys .nil ⟨0, .nil⟩ rfl
    exact ⟨l, heq, fun s hs => (hall s hs).2⟩

theorem C4_bst_order_witness :
    ∀ s ∈ [AVLTree.node .nil 2 1 .nil,
      .node (.node .nil 1 1 .nil) 2 2 .nil,
      .node (.node .nil 1 2 (.node .nil 1 1 .nil)) 2 3 .nil],
      sortedLe (inorder s) = true :=
  (C4_bst_order [2, 1, 1]).1
    [.node .nil 2 1 .nil, .node (.node .nil 1 1 .nil) 2 2 .nil,
      .node (.node .nil 1 2 (.node .nil 1 1 .nil)) 2 3 .nil] (by decide)

/-- Claim C5: every tree produced by a sequence of `avlInsert` calls from
the empty tree stores in every node a `height` field equal to the actual
height of the subtree rooted there. -/
theorem C5_heights_accurate (keys : List Int) (t : AVLTree)
    (h : avlInsertList keys = some t) : heightsOK t = true :=
  avlFoldlM_heightsOK keys (show heightsOK .nil = true from rfl) h

theorem C5_heights_accurate_witness :
    heightsOK (.node (.node .nil 1 1 .nil) 1 2 (.node .nil 2 1 .nil)) = true :=
  C5_heights_accurate [1, 1, 2]
    (.node (.node .nil 1 1 .nil) 1 2 (.node .nil 2 1 .nil)) (by decide)

/-- Claim C6: the `fixInsert` loop always terminates: each executed
iteration either leaves the loop or moves the focus two ancestor frames
up, so the number of iterations is bounded by half the depth plus one. -/
theorem C6_fixup_terminates (z : RBTree) (ctx : List Frame) :
    fixInsertIters z ctx ≤ ctx.length / 2 + 1 :=
  fixInsertIters_le ctx z

/-- Claim C7, counterexample: the trace does not exist for every input:
on `[2, 2, 2, 2, 1]` the AVL engine throws (null dereference in
`rightRotate`) before `buildAVLTreeSteps` can return a trace. -/
theorem C7_counterexample : buildAVLTreeSteps [2, 2, 2, 2, 1] = none := by
  decide

/-- Claim C7, amended: the Red-Black recorder always produces exactly one
snapshot per input key in order; the AVL recorder does so whenever it
completes (in particular the empty input gives an empty trace). -/
theorem C7_trace_length (keys : List Int) :
    (∃ l, buildRedBlackTreeSteps keys = some l ∧ l.length = keys.length) ∧
    (∀ l, buildAVLTreeSteps keys = some l → l.length = keys.length) := by
  constructor
  · obtain ⟨l, heq, hlen, _⟩ := buildRBStepsGo_sound keys .nil ⟨0, .nil⟩ rfl
    exact ⟨l, heq, hlen⟩
  · intro l h
    exact buildAVLStepsGo_length keys .nil h

theorem C7_trace_length_witness :
    ([AVLTree.node .nil 5 1 .nil,
      .node .nil 5 2 (.node .nil 6 1 .nil)] : List AVLTree).length =
      ([5, 6] : List Int).length :=
  (C7_trace_length [5, 6]).2
    [.node .nil 5 1 .nil, .node .nil 5 2 (.node .nil 6 1 .nil)] (by decide)

/-- Claim C9: the playback index starts at 0 whenever the trace is
replaced, advances by exactly one per timer tick while strictly below the
last snapshot, and is absorbing at the last snapshot: every further tick
(or any number of them) leaves it unchanged, with no wraparound. -/
theorem C9_playback_laws :
    resetIndex = 0 ∧
    (∀ len i : Nat, i < len - 1 → tickIndex len i = i + 1) ∧
    (∀ len : Nat, tickIndex len (len - 1) = len - 1) ∧
    (∀ len n : Nat, runTicks len n (len - 1) = len - 1) := by
  have habs : ∀ len : Nat, tickIndex len (len - 1) = len - 1 := by
    intro len
    rw [tickIndex, if_neg (by omega)]
  refine ⟨rfl, ?_, habs, ?_⟩
  · intro len i h
    rw [tickIndex, if_pos h]
  · intro len n
    induction n with
    | zero => rfl
    | succ n ih => rw [runTicks, habs]; exact ih

theorem C9_playback_laws_witness : tickIndex 5 2 = 3 ∧ tickIndex 5 4 = 4 :=
  ⟨C9_playback_laws.2.1 5 2 (by decide), C9_playback_laws.2.2.1 5⟩

/-- Claim C10, counterexample: the AVL half of the claim fails: after
inserting `[2, 2, 2, 2]` the tree is a right chain, and inserting `1`
invokes `rightRotate` on `root.right`, whose promoted child
`root.right.left` is null — the engine crashes. -/
theorem C10_counterexample :
    avlInsertList [2, 2, 2, 2] =
      some (.node .nil 2 4 (.node .nil 2 3 (.node .nil 2 2
        (.node .nil 2 1 .nil)))) ∧
    avlInsert (.node .nil 2 4 (.node .nil 2 3 (.node .nil 2 2
        (.node .nil 2 1 .nil)))) 1 = none :=
  ⟨by decide, by decide⟩

/-- Claim C10, amended: the Red-Black engine never dereferences null — for
every key sequence every fixup loop finds the grandparent it reads — and
the AVL rotations are only invoked on non-null children when the inserted
keys are pairwise distinct. -/
theorem C10_no_null_deref (keys : List Int) :
    (∃ t, rbInsertList keys = some t) ∧
    (keys.Nodup → ∃ t, avlInsertList keys = some t) := by
  constructor
  · obtain ⟨t, heq, _⟩ := rbFoldlM_sound keys .nil ⟨0, .nil⟩
    exact ⟨t, heq⟩
  · intro hnd
    exact avlFoldlM_nodup keys .nil rfl rfl (by simp [inorder]) hnd

theorem C10_no_null_deref_witness : ∃ t, avlInsertList [3, 1] = some t :=
  (C10_no_null_deref [3, 1]).2 (by decide)

end DSAViz
